import Mathlib

/-!
Shallow embedding of the Huffman coder in `src/main.rs` (crate
`huffman-testing`).  Strings are modelled as `List Char` (the sequence of
Unicode scalar values produced by `str::chars`), bit vectors as `List Bool`,
and the `BiMap char -> BitVec` table as an association list whose insert
operation mirrors `bimap::BiMap::insert` (it evicts any pair sharing the
left key or the right value).  Rust panics (`unwrap`, `expect`,
`unreachable!`) are modelled by `Option.none`; `HashMap` iteration order is
modelled by an explicit association list, with order-independence proved
separately (claim C8).  Loops are modelled with an explicit fuel argument
that is always sufficient (fuel equals the loop's termination measure at
entry), so every definition evaluates by kernel reduction.
-/

namespace Huffman

/-- The `TreeNode` enum of the source: a leaf holds a char and its count,
an internal node holds its two children and a cached count. -/
inductive TreeNode where
  | LeafNode (char : Char) (count : Nat)
  | InternalNode (left right : TreeNode) (count : Nat)
deriving DecidableEq, Repr

/-- `TreeNode::count`. -/
def TreeNode.count : TreeNode → Nat
  | .LeafNode _ n => n
  | .InternalNode _ _ n => n

/-- `TreeNode::new_leaf`. -/
def TreeNode.new_leaf (c : Char) (n : Nat) : TreeNode := .LeafNode c n

/-- `TreeNode::new_internal`: the cached count is the sum of the children's
counts. -/
def TreeNode.new_internal (l r : TreeNode) : TreeNode :=
  .InternalNode l r (l.count + r.count)

/-- Number of leaves of a tree (used as fuel / termination measure). -/
def TreeNode.size : TreeNode → Nat
  | .LeafNode _ _ => 1
  | .InternalNode l r _ => l.size + r.size + 1

/-- The chars at the leaves, in left-to-right order. -/
def leafChars : TreeNode → List Char
  | .LeafNode c _ => [c]
  | .InternalNode l r _ => leafChars l ++ leafChars r

/-- The weight invariant of the spec: every internal node's count is the sum
of its children's counts. -/
def countOk : TreeNode → Bool
  | .LeafNode _ _ => true
  | .InternalNode l r n => (n == l.count + r.count) && countOk l && countOk r

/-- One step of `count_chars`'s loop: `*chars.entry(char).or_insert(0) += 1`
on an association-list model of the `HashMap`. -/
def inc_count : List (Char × Nat) → Char → List (Char × Nat)
  | [], c => [(c, 1)]
  | (c0, n) :: rest, c =>
      if c0 = c then (c0, n + 1) :: rest else (c0, n) :: inc_count rest c

/-- `count_chars`: frequency map of the input, as an association list in
first-occurrence order (the order is irrelevant downstream: the next stage
sorts by an injective key, see `C8_determinism`). -/
def count_chars (s : List Char) : List (Char × Nat) :=
  s.foldl inc_count []

/-- The sort key of `initialize_nodes`:
`(Reverse(*count), *char as u64)` compared lexicographically, i.e. larger
count first and, on equal counts, smaller code point first. -/
def key_le (x y : Char × Nat) : Prop :=
  y.2 < x.2 ∨ (x.2 = y.2 ∧ x.1 ≤ y.1)

instance : DecidableRel key_le := fun x y =>
  inferInstanceAs (Decidable (y.2 < x.2 ∨ (x.2 = y.2 ∧ x.1 ≤ y.1)))

instance : IsTotal (Char × Nat) key_le := ⟨by
  intro x y
  unfold key_le
  rcases Nat.lt_trichotomy x.2 y.2 with h | h | h
  · exact Or.inr (Or.inl h)
  · rcases le_total x.1 y.1 with hc | hc
    · exact Or.inl (Or.inr ⟨h, hc⟩)
    · exact Or.inr (Or.inr ⟨h.symm, hc⟩)
  · exact Or.inl (Or.inl h)⟩

instance : IsTrans (Char × Nat) key_le := ⟨by
  intro x y z hxy hyz
  unfold key_le at hxy hyz ⊢
  rcases hxy with h1 | ⟨h1, h1c⟩ <;> rcases hyz with h2 | ⟨h2, h2c⟩
  · exact Or.inl (by omega)
  · exact Or.inl (by omega)
  · exact Or.inl (by omega)
  · exact Or.inr ⟨by omega, le_trans h1c h2c⟩⟩

instance : IsAntisymm (Char × Nat) key_le := ⟨by
  intro x y hxy hyx
  unfold key_le at hxy hyx
  obtain ⟨x1, x2⟩ := x
  obtain ⟨y1, y2⟩ := y
  simp only at hxy hyx
  rcases hxy with h1 | ⟨h1, h1c⟩ <;> rcases hyx with h2 | ⟨h2, h2c⟩
  · omega
  · omega
  · omega
  · exact Prod.ext (le_antisymm h1c h2c) h1⟩

/-- `initialize_nodes`: sort the (char, count) pairs by the key above
(`Vec::sort_by_key` is stable; on this injective key stability is moot) and
turn each pair into a leaf. -/
def initialize_nodes (counts : List (Char × Nat)) : List TreeNode :=
  (counts.insertionSort key_le).map (fun p => TreeNode.new_leaf p.1 p.2)

/-- The comparison of `construct_tree`'s re-sort:
`sort_by_key(|node| Reverse(node.count()))`, i.e. descending count. -/
def node_le (x y : TreeNode) : Prop := y.count ≤ x.count

instance : DecidableRel node_le := fun x y =>
  inferInstanceAs (Decidable (y.count ≤ x.count))

/-- Stable descending re-sort of the working vector (Rust's stable
`sort_by_key`; insertion sort is stable, hence extensionally the same
function). -/
def sortNodes (l : List TreeNode) : List TreeNode :=
  l.insertionSort node_le

/-- `Vec::pop` applied twice: returns (last, second-to-last, rest).
`none` models the `unwrap` panic when fewer than two elements remain. -/
def pop2 : List α → Option (α × α × List α)
  | [] => none
  | [_] => none
  | [y, x] => some (x, y, [])
  | z :: rest => (pop2 rest).map (fun p => (p.1, p.2.1, z :: p.2.2))

/-- The `while nodes.len() > 1` loop of `construct_tree`, with fuel.  Each
iteration pops the two smallest nodes (the first popped becomes `left`),
pushes their merge and re-sorts descending.  `none` models the final
`nodes.pop().unwrap()` panicking on an empty vector. -/
def construct_tree_go : Nat → List TreeNode → Option TreeNode
  | _, [] => none
  | _, [n] => some n
  | 0, _ :: _ :: _ => none
  | fuel + 1, nodes =>
      match pop2 nodes with
      | some (a, b, rest) =>
          construct_tree_go fuel (sortNodes (rest ++ [TreeNode.new_internal a b]))
      | none => none

/-- `construct_tree`.  The fuel `nodes.length` is exact: each iteration
shortens the vector by one. -/
def construct_tree (nodes : List TreeNode) : Option TreeNode :=
  construct_tree_go nodes.length nodes

/-- `calculate_huffman_tree`. -/
def calculate_huffman_tree (s : List Char) : Option TreeNode :=
  construct_tree (initialize_nodes (count_chars s))

/-- The `BiMap<char, BitVec>` table, as an association list (`type
HuffmanTable = BiMap<char, BitVec>` is a type alias in the source). -/
abbrev HuffmanTable := List (Char × List Bool)

/-- `bimap::BiMap::insert`: evicts any existing pair sharing the left key or
the right value, then records the new pair. -/
def bimap_insert (t : HuffmanTable) (c : Char) (v : List Bool) : HuffmanTable :=
  (c, v) :: List.filter (fun p => !(p.1 == c) && !(p.2 == v)) t

/-- `BiMap::get_by_left`. -/
def get_by_left (t : HuffmanTable) (c : Char) : Option (List Bool) :=
  (List.find? (fun p => p.1 == c) t).map (fun p => p.2)

/-- The explicit-stack DFS loop of `calculate_encodings`, with fuel.  The
stack's head is its top; visiting an internal node pushes
`(right, index+[true])` then `(left, index+[false])`, so the left child is
processed first. -/
def calc_encodings_go : Nat → List (TreeNode × List Bool) → HuffmanTable → HuffmanTable
  | _, [], acc => acc
  | 0, _ :: _, acc => acc
  | fuel + 1, (t, index) :: rest, acc =>
      match t with
      | .LeafNode c _ => calc_encodings_go fuel rest (bimap_insert acc c index)
      | .InternalNode l r _ =>
          calc_encodings_go fuel
            ((l, index ++ [false]) :: (r, index ++ [true]) :: rest) acc

/-- `calculate_encodings`.  The fuel `tree.size` is exact: every iteration
decreases the total leaf-count on the stack by one. -/
def calculate_encodings (tree : TreeNode) : HuffmanTable :=
  calc_encodings_go tree.size [(tree, [])] []

/-- `calculate_huffman_table` (panics on empty input through
`construct_tree`, hence the `Option`). -/
def calculate_huffman_table (s : List Char) : Option HuffmanTable :=
  (calculate_huffman_tree s).map calculate_encodings

/-- `huffman_encode`: concatenate the code of each input char, in order.
`none` models the `expect("char should be in the table")` panic. -/
def huffman_encode : List Char → HuffmanTable → Option (List Bool)
  | [], _ => some []
  | c :: rest, table =>
      match get_by_left table c with
      | none => none
      | some index =>
          match huffman_encode rest table with
          | none => none
          | some restBits => some (index ++ restBits)

/-- The bit-consuming loop of `huffman_decode`.  `root` is the tree the
walker resets to; `none` models the two `unreachable!()` panics (a bit
consumed while the current node is a leaf). -/
def decode_loop (root : TreeNode) : List Bool → TreeNode → List Char → Option (List Char)
  | [], _, result => some result
  | bit :: bits, node, result =>
      match node with
      | .LeafNode _ _ => none
      | .InternalNode l r _ =>
          match (if bit then r else l) with
          | .LeafNode c _ => decode_loop root bits root (result ++ [c])
          | .InternalNode l2 r2 k2 =>
              decode_loop root bits (.InternalNode l2 r2 k2) result

/-- `huffman_decode` (the source reverses the bit vector only so that `pop`
walks the bits in stream order, which `decode_loop` does directly). -/
def huffman_decode (bits : List Bool) (tree : TreeNode) : Option (List Char) :=
  decode_loop tree bits tree []

/-- The (char, root-to-leaf path) pairs of a tree below accumulated path
`p`, in left-to-right leaf order: the mathematical value computed by
`calculate_encodings`. -/
def paths : TreeNode → List Bool → List (Char × List Bool)
  | .LeafNode c _, p => [(c, p)]
  | .InternalNode l r _, p => paths l (p ++ [false]) ++ paths r (p ++ [true])

/-- All (char, path) pairs still to be emitted by the DFS stack. -/
def stackPaths (stack : List (TreeNode × List Bool)) : List (Char × List Bool) :=
  (stack.map (fun e => paths e.1 e.2)).flatten

/-- Leaf chars of a whole working vector of trees. -/
def nodesChars (nodes : List TreeNode) : List Char :=
  (nodes.map leafChars).flatten

/-! ### Structure of `paths` -/

theorem paths_map (t : TreeNode) (p : List Bool) :
    paths t p = (paths t []).map (fun e => (e.1, p ++ e.2)) := by
  induction t generalizing p with
  | LeafNode c n => simp [paths]
  | InternalNode l r k ihl ihr =>
      simp only [paths, List.map_append, List.nil_append]
      rw [ihl (p ++ [false]), ihr (p ++ [true]), ihl [false], ihr [true]]
      simp [List.map_map, Function.comp_def, List.append_assoc]

theorem paths_fst (t : TreeNode) (p : List Bool) :
    (paths t p).map Prod.fst = leafChars t := by
  induction t generalizing p with
  | LeafNode c n => simp [paths, leafChars]
  | InternalNode l r k ihl ihr => simp [paths, leafChars, ihl, ihr]

theorem mem_paths_shape {t : TreeNode} {p : List Bool} {e : Char × List Bool}
    (h : e ∈ paths t p) : ∃ q, e.2 = p ++ q ∧ (e.1, q) ∈ paths t [] := by
  rw [paths_map t p] at h
  obtain ⟨e0, he0, heq⟩ := List.mem_map.mp h
  exact ⟨e0.2, by simp [← heq], by simpa [← heq] using he0⟩

theorem mem_paths_ne_nil {l r : TreeNode} {k : Nat} {c : Char} {p : List Bool}
    (h : (c, p) ∈ paths (.InternalNode l r k) []) : p ≠ [] := by
  simp only [paths, List.nil_append, List.mem_append] at h
  rcases h with h | h
  · obtain ⟨q, hq, _⟩ := mem_paths_shape h
    simp only at hq
    simp [hq]
  · obtain ⟨q, hq, _⟩ := mem_paths_shape h
    simp only at hq
    simp [hq]

theorem mem_paths_of_leafChar {t : TreeNode} {c : Char} (h : c ∈ leafChars t) :
    ∃ p, (c, p) ∈ paths t [] := by
  rw [← paths_fst t []] at h
  obtain ⟨e, he, heq⟩ := List.mem_map.mp h
  exact ⟨e.2, by simpa [← heq] using he⟩

theorem paths_prefixFree (t : TreeNode) (p : List Bool) :
    ∀ e1 ∈ paths t p, ∀ e2 ∈ paths t p, e1.2 <+: e2.2 → e1 = e2 := by
  induction t generalizing p with
  | LeafNode c n =>
      intro e1 h1 e2 h2 _
      simp only [paths, List.mem_singleton] at h1 h2
      rw [h1, h2]
  | InternalNode l r k ihl ihr =>
      intro e1 h1 e2 h2 hpre
      simp only [paths, List.mem_append] at h1 h2
      rcases h1 with h1 | h1 <;> rcases h2 with h2 | h2
      · exact ihl _ e1 h1 e2 h2 hpre
      · obtain ⟨q1, hq1, _⟩ := mem_paths_shape h1
        obtain ⟨q2, hq2, _⟩ := mem_paths_shape h2
        obtain ⟨tl, htl⟩ := hpre
        rw [hq1, hq2] at htl
        simp only [List.append_assoc, List.append_cancel_left_eq,
          List.cons_append, List.singleton_append, List.cons.injEq] at htl
        exact absurd htl.1 (by simp)
      · obtain ⟨q1, hq1, _⟩ := mem_paths_shape h1
        obtain ⟨q2, hq2, _⟩ := mem_paths_shape h2
        obtain ⟨tl, htl⟩ := hpre
        rw [hq1, hq2] at htl
        simp only [List.append_assoc, List.append_cancel_left_eq,
          List.cons_append, List.singleton_append, List.cons.injEq] at htl
        exact absurd htl.1 (by simp)
      · exact ihr _ e1 h1 e2 h2 hpre

theorem paths_snd_nodup (t : TreeNode) (p : List Bool) :
    ((paths t p).map Prod.snd).Nodup := by
  induction t generalizing p with
  | LeafNode c n => simp [paths]
  | InternalNode l r k ihl ihr =>
      simp only [paths, List.map_append, List.nodup_append]
      refine ⟨ihl _, ihr _, ?_⟩
      intro x hx hy
      obtain ⟨e1, he1, heq1⟩ := List.mem_map.mp hx
      obtain ⟨e2, he2, heq2⟩ := List.mem_map.mp hy
      obtain ⟨q1, hq1, _⟩ := mem_paths_shape he1
      obtain ⟨q2, hq2, _⟩ := mem_paths_shape he2
      have hcontra : e1.2 = e2.2 := by rw [heq1, heq2]
      rw [hq1, hq2] at hcontra
      simp only [List.append_assoc, List.append_cancel_left_eq,
        List.cons_append, List.singleton_append, List.cons.injEq] at hcontra
      exact absurd hcontra.1 (by simp)

theorem paths_entries_nodup {t : TreeNode} (h : (leafChars t).Nodup) (p : List Bool) :
    (paths t p).Nodup := by
  have := h
  rw [← paths_fst t p] at this
  exact this.of_map Prod.fst

/-! ### Lookup in an association table -/

theorem get_by_left_of_mem {table : List (Char × List Bool)} {c : Char} {p : List Bool}
    (hn : (table.map Prod.fst).Nodup) (hm : (c, p) ∈ table) :
    get_by_left table c = some p := by
  induction table with
  | nil => cases hm
  | cons e rest ih =>
      simp only [List.map_cons, List.nodup_cons] at hn
      rcases List.mem_cons.mp hm with he | hrest
      · rw [← he]
        simp [get_by_left]
      · have hne : e.1 ≠ c := by
          intro hc
          exact hn.1 (hc ▸ (List.mem_map_of_mem Prod.fst hrest))
        simp only [get_by_left, List.find?_cons]
        rw [show (e.1 == c) = false from beq_false_of_ne hne]
        exact ih hn.2 hrest

theorem mem_of_get_by_left {table : List (Char × List Bool)} {c : Char} {p : List Bool}
    (h : get_by_left table c = some p) : (c, p) ∈ table := by
  simp only [get_by_left, Option.map_eq_some'] at h
  obtain ⟨e, he, hp⟩ := h
  have := List.find?_some he
  have hmem := List.mem_of_find?_eq_some he
  simp only [beq_iff_eq] at this
  have : e = (c, p) := by
    cases e
    simp only at this hp
    simp [this, hp]
  exact this ▸ hmem

/-! ### Frequency counting -/

theorem inc_count_cons_eq (c0 c : Char) (n : Nat) (rest : List (Char × Nat)) :
    inc_count ((c0, n) :: rest) c =
      if c0 = c then (c0, n + 1) :: rest else (c0, n) :: inc_count rest c := rfl

theorem mem_inc_count_fst (m : List (Char × Nat)) (c d : Char) :
    d ∈ (inc_count m c).map Prod.fst ↔ d ∈ m.map Prod.fst ∨ d = c := by
  induction m with
  | nil => simp [inc_count]
  | cons e rest ih =>
      obtain ⟨c0, n⟩ := e
      by_cases h : c0 = c
      · subst h
        rw [inc_count_cons_eq, if_pos rfl]
        simp only [List.map_cons, List.mem_cons]
        tauto
      · rw [inc_count_cons_eq, if_neg h]
        simp only [List.map_cons, List.mem_cons, ih]
        tauto

theorem inc_count_fst_nodup {m : List (Char × Nat)} (c : Char)
    (h : (m.map Prod.fst).Nodup) : ((inc_count m c).map Prod.fst).Nodup := by
  induction m with
  | nil => simp [inc_count]
  | cons e rest ih =>
      obtain ⟨c0, n⟩ := e
      simp only [List.map_cons, List.nodup_cons] at h
      by_cases hc : c0 = c
      · subst hc
        rw [inc_count_cons_eq, if_pos rfl]
        simp only [List.map_cons, List.nodup_cons]
        exact h
      · rw [inc_count_cons_eq, if_neg hc]
        simp only [List.map_cons, List.nodup_cons]
        refine ⟨?_, ih h.2⟩
        rw [mem_inc_count_fst]
        rintro (hx | hx)
        · exact h.1 hx
        · exact hc hx

theorem inc_count_snd_sum (m : List (Char × Nat)) (c : Char) :
    ((inc_count m c).map Prod.snd).sum = (m.map Prod.snd).sum + 1 := by
  induction m with
  | nil => simp [inc_count]
  | cons e rest ih =>
      obtain ⟨c0, n⟩ := e
      by_cases hc : c0 = c
      · subst hc
        rw [inc_count_cons_eq, if_pos rfl]
        simp only [List.map_cons, List.sum_cons]
        omega
      · rw [inc_count_cons_eq, if_neg hc]
        simp only [List.map_cons, List.sum_cons, ih]
        omega

theorem count_chars_fold_fst_nodup (s : List Char) :
    ∀ m : List (Char × Nat), (m.map Prod.fst).Nodup →
      ((s.foldl inc_count m).map Prod.fst).Nodup := by
  induction s with
  | nil => intro m h; simpa using h
  | cons c rest ih =>
      intro m h
      simpa [List.foldl_cons] using ih (inc_count m c) (inc_count_fst_nodup c h)

theorem mem_count_chars_fold_fst (s : List Char) :
    ∀ (m : List (Char × Nat)) (d : Char),
      d ∈ (s.foldl inc_count m).map Prod.fst ↔ d ∈ m.map Prod.fst ∨ d ∈ s := by
  induction s with
  | nil => intro m d; simp
  | cons c rest ih =>
      intro m d
      simp only [List.foldl_cons, ih (inc_count m c) d, mem_inc_count_fst, List.mem_cons]
      tauto

theorem count_chars_fold_snd_sum (s : List Char) :
    ∀ m : List (Char × Nat),
      ((s.foldl inc_count m).map Prod.snd).sum = (m.map Prod.snd).sum + s.length := by
  induction s with
  | nil => intro m; simp
  | cons c rest ih =>
      intro m
      simp only [List.foldl_cons, ih (inc_count m c), inc_count_snd_sum, List.length_cons]
      omega

theorem count_chars_fst_nodup (s : List Char) :
    ((count_chars s).map Prod.fst).Nodup :=
  count_chars_fold_fst_nodup s [] (by simp)

theorem mem_count_chars_fst (s : List Char) (d : Char) :
    d ∈ (count_chars s).map Prod.fst ↔ d ∈ s := by
  simpa using mem_count_chars_fold_fst s [] d

theorem count_chars_snd_sum (s : List Char) :
    ((count_chars s).map Prod.snd).sum = s.length := by
  simpa using count_chars_fold_snd_sum s []

/-- Two distinct members force a list to have at least two elements. -/
theorem two_le_length_of_two_mem {l : List Char} {a b : Char}
    (ha : a ∈ l) (hb : b ∈ l) (hab : a ≠ b) : 2 ≤ l.length := by
  match l with
  | [] => cases ha
  | [x] =>
      rw [List.mem_singleton] at ha hb
      exact absurd (ha.trans hb.symm) hab
  | _ :: _ :: _ => simp [List.length_cons]

/-! ### Leaf initialisation -/

theorem nodesChars_append (l1 l2 : List TreeNode) :
    nodesChars (l1 ++ l2) = nodesChars l1 ++ nodesChars l2 := by
  simp [nodesChars]

theorem nodesChars_perm {l1 l2 : List TreeNode} (h : List.Perm l1 l2) :
    List.Perm (nodesChars l1) (nodesChars l2) :=
  (h.map leafChars).flatten

theorem nodesChars_leaves (l : List (Char × Nat)) :
    nodesChars (l.map (fun p => TreeNode.new_leaf p.1 p.2)) = l.map Prod.fst := by
  induction l with
  | nil => rfl
  | cons e rest ih => simp [nodesChars, TreeNode.new_leaf, leafChars] at ih ⊢; exact ih

theorem initialize_nodes_chars_perm (counts : List (Char × Nat)) :
    List.Perm (nodesChars (initialize_nodes counts)) (counts.map Prod.fst) := by
  unfold initialize_nodes
  rw [nodesChars_leaves]
  exact (List.perm_insertionSort key_le counts).map Prod.fst

theorem initialize_nodes_count_sum (counts : List (Char × Nat)) :
    ((initialize_nodes counts).map TreeNode.count).sum = (counts.map Prod.snd).sum := by
  unfold initialize_nodes
  rw [List.map_map]
  have : (TreeNode.count ∘ fun p : Char × Nat => TreeNode.new_leaf p.1 p.2) = Prod.snd := by
    funext p; rfl
  rw [this]
  exact ((List.perm_insertionSort key_le counts).map Prod.snd).sum_eq

theorem initialize_nodes_countOk (counts : List (Char × Nat)) :
    ∀ n ∈ initialize_nodes counts, countOk n = true := by
  intro n hn
  unfold initialize_nodes at hn
  obtain ⟨p, _, hp⟩ := List.mem_map.mp hn
  rw [← hp]
  rfl

theorem initialize_nodes_length (counts : List (Char × Nat)) :
    (initialize_nodes counts).length = counts.length := by
  unfold initialize_nodes
  rw [List.length_map, List.length_insertionSort]

/-! ### The merge loop -/

theorem pop2_eq_some {l : List α} (h : 2 ≤ l.length) :
    ∃ a b rest, pop2 l = some (a, b, rest) ∧ l = rest ++ [b, a] := by
  induction l with
  | nil => simp at h
  | cons e rest ih =>
      match rest with
      | [] => simp at h
      | [e2] => exact ⟨e2, e, [], rfl, rfl⟩
      | e2 :: e3 :: rest3 =>
          obtain ⟨a, b, r, hp, hd⟩ := ih (by simp)
          refine ⟨a, b, e :: r, ?_, ?_⟩
          · show (pop2 (e2 :: e3 :: rest3)).map
                (fun p => (p.1, p.2.1, e :: p.2.2)) = some (a, b, e :: r)
            rw [hp]
            rfl
          · rw [List.cons_append, ← hd]

theorem sortNodes_singleton (n : TreeNode) : sortNodes [n] = [n] := rfl

theorem sortNodes_perm (l : List TreeNode) : List.Perm (sortNodes l) l :=
  List.perm_insertionSort node_le l

theorem sortNodes_length (l : List TreeNode) : (sortNodes l).length = l.length :=
  List.length_insertionSort node_le l

theorem construct_tree_go_step (fuel : Nat) (x y : TreeNode) (rest : List TreeNode)
    {a b : TreeNode} {r : List TreeNode} (hp : pop2 (x :: y :: rest) = some (a, b, r)) :
    construct_tree_go (fuel + 1) (x :: y :: rest) =
      construct_tree_go fuel (sortNodes (r ++ [TreeNode.new_internal a b])) := by
  show (match pop2 (x :: y :: rest) with
        | some (a, b, r) =>
            construct_tree_go fuel (sortNodes (r ++ [TreeNode.new_internal a b]))
        | none => none) =
      construct_tree_go fuel (sortNodes (r ++ [TreeNode.new_internal a b]))
  rw [hp]

theorem construct_tree_go_singleton (fuel : Nat) (n : TreeNode) :
    construct_tree_go fuel [n] = some n := by
  cases fuel <;> rfl

theorem construct_tree_go_leafChars :
    ∀ (fuel : Nat) (nodes : List TreeNode) (t : TreeNode),
      nodes.length ≤ fuel + 1 → construct_tree_go fuel nodes = some t →
      List.Perm (leafChars t) (nodesChars nodes) := by
  intro fuel
  induction fuel with
  | zero =>
      intro nodes t hlen h
      match nodes with
      | [] => simp [construct_tree_go] at h
      | [n] =>
          have hn : n = t := by simpa [construct_tree_go] using h
          subst hn
          simp [nodesChars]
      | x :: y :: rest => simp [List.length_cons] at hlen
  | succ fuel ih =>
      intro nodes t hlen h
      match nodes with
      | [] => simp [construct_tree_go] at h
      | [n] =>
          have hn : n = t := by simpa [construct_tree_go] using h
          subst hn
          simp [nodesChars]
      | x :: y :: rest =>
          obtain ⟨a, b, r, hp, hd⟩ := pop2_eq_some (l := x :: y :: rest) (by simp)
          rw [construct_tree_go_step fuel x y rest hp] at h
          have hlen0 : (x :: y :: rest).length = r.length + 2 := by rw [hd]; simp
          have hlen2 : (sortNodes (r ++ [TreeNode.new_internal a b])).length ≤ fuel + 1 := by
            rw [sortNodes_length, List.length_append]
            simp only [List.length_cons, List.length_nil] at hlen hlen0 ⊢
            omega
          refine (ih _ t hlen2 h).trans ?_
          refine (nodesChars_perm (sortNodes_perm _)).trans ?_
          rw [hd, nodesChars_append, nodesChars_append]
          refine List.Perm.append_left _ ?_
          simp only [nodesChars, List.map_cons, List.map_nil, List.flatten_cons,
            List.flatten_nil, List.append_nil, TreeNode.new_internal, leafChars]
          exact List.perm_append_comm

theorem construct_tree_go_count_sum :
    ∀ (fuel : Nat) (nodes : List TreeNode) (t : TreeNode),
      nodes.length ≤ fuel + 1 → construct_tree_go fuel nodes = some t →
      t.count = (nodes.map TreeNode.count).sum := by
  intro fuel
  induction fuel with
  | zero =>
      intro nodes t hlen h
      match nodes with
      | [] => simp [construct_tree_go] at h
      | [n] =>
          have hn : n = t := by simpa [construct_tree_go] using h
          subst hn
          simp
      | x :: y :: rest => simp [List.length_cons] at hlen
  | succ fuel ih =>
      intro nodes t hlen h
      match nodes with
      | [] => simp [construct_tree_go] at h
      | [n] =>
          have hn : n = t := by simpa [construct_tree_go] using h
          subst hn
          simp
      | x :: y :: rest =>
          obtain ⟨a, b, r, hp, hd⟩ := pop2_eq_some (l := x :: y :: rest) (by simp)
          rw [construct_tree_go_step fuel x y rest hp] at h
          have hlen0 : (x :: y :: rest).length = r.length + 2 := by rw [hd]; simp
          have hlen2 : (sortNodes (r ++ [TreeNode.new_internal a b])).length ≤ fuel + 1 := by
            rw [sortNodes_length, List.length_append]
            simp only [List.length_cons, List.length_nil] at hlen hlen0 ⊢
            omega
          rw [ih _ t hlen2 h, ((sortNodes_perm _).map TreeNode.count).sum_eq, hd]
          simp [TreeNode.new_internal, TreeNode.count]
          omega

theorem construct_tree_go_countOk :
    ∀ (fuel : Nat) (nodes : List TreeNode) (t : TreeNode),
      nodes.length ≤ fuel + 1 → (∀ n ∈ nodes, countOk n = true) →
      construct_tree_go fuel nodes = some t → countOk t = true := by
  intro fuel
  induction fuel with
  | zero =>
      intro nodes t hlen hok h
      match nodes with
      | [] => simp [construct_tree_go] at h
      | [n] =>
          have hn : n = t := by simpa [construct_tree_go] using h
          exact hn ▸ hok n (by simp)
      | x :: y :: rest => simp [List.length_cons] at hlen
  | succ fuel ih =>
      intro nodes t hlen hok h
      match nodes with
      | [] => simp [construct_tree_go] at h
      | [n] =>
          have hn : n = t := by simpa [construct_tree_go] using h
          exact hn ▸ hok n (by simp)
      | x :: y :: rest =>
          obtain ⟨a, b, r, hp, hd⟩ := pop2_eq_some (l := x :: y :: rest) (by simp)
          rw [construct_tree_go_step fuel x y rest hp] at h
          have hlen0 : (x :: y :: rest).length = r.length + 2 := by rw [hd]; simp
          have hlen2 : (sortNodes (r ++ [TreeNode.new_internal a b])).length ≤ fuel + 1 := by
            rw [sortNodes_length, List.length_append]
            simp only [List.length_cons, List.length_nil] at hlen hlen0 ⊢
            omega
          refine ih _ t hlen2 ?_ h
          intro n hn
          have hn' : n ∈ r ++ [TreeNode.new_internal a b] :=
            (sortNodes_perm _).mem_iff.mp hn
          rcases List.mem_append.mp hn' with hr | hni
          · exact hok n (by rw [hd]; exact List.mem_append_left _ hr)
          · have hna : TreeNode.count a = a.count := rfl
            have ha : countOk a = true := hok a (by rw [hd]; simp)
            have hb : countOk b = true := hok b (by rw [hd]; simp)
            rw [List.mem_singleton.mp hni]
            simp [TreeNode.new_internal, countOk, TreeNode.count, ha, hb]

theorem construct_tree_go_internal :
    ∀ (fuel : Nat) (nodes : List TreeNode), 2 ≤ nodes.length → nodes.length ≤ fuel + 1 →
      ∃ l r k, construct_tree_go fuel nodes = some (.InternalNode l r k) := by
  intro fuel
  induction fuel with
  | zero => intro nodes h2 h1; omega
  | succ fuel ih =>
      intro nodes h2 hlen
      match nodes with
      | [] => simp at h2
      | [n] => simp at h2
      | x :: y :: rest =>
          obtain ⟨a, b, r, hp, hd⟩ := pop2_eq_some (l := x :: y :: rest) (by simp)
          rw [construct_tree_go_step fuel x y rest hp]
          match r with
          | [] =>
              rw [List.nil_append, sortNodes_singleton, construct_tree_go_singleton]
              exact ⟨a, b, a.count + b.count, rfl⟩
          | z :: r' =>
              have hlen0 : (x :: y :: rest).length = (z :: r').length + 2 := by
                rw [hd]; simp
              have h1 : (sortNodes ((z :: r') ++ [TreeNode.new_internal a b])).length
                  = r'.length + 2 := by
                rw [sortNodes_length, List.length_append]
                simp
              apply ih
              · rw [h1]; omega
              · rw [h1]
                simp only [List.length_cons, List.length_nil] at hlen hlen0
                omega

/-! ### The table DFS computes exactly the leaf paths -/

theorem size_pos (t : TreeNode) : 1 ≤ t.size := by
  cases t <;> simp [TreeNode.size]

theorem stackPaths_nil : stackPaths [] = [] := rfl

theorem stackPaths_cons (t : TreeNode) (index : List Bool)
    (rest : List (TreeNode × List Bool)) :
    stackPaths ((t, index) :: rest) = paths t index ++ stackPaths rest := by
  simp [stackPaths]

theorem calc_encodings_go_spec :
    ∀ (fuel : Nat) (stack : List (TreeNode × List Bool)) (acc : HuffmanTable),
      (stack.map (fun e => e.1.size)).sum ≤ fuel →
      ((stackPaths stack).map Prod.fst ++ acc.map Prod.fst).Nodup →
      ((stackPaths stack).map Prod.snd ++ acc.map Prod.snd).Nodup →
      calc_encodings_go fuel stack acc = (stackPaths stack).reverse ++ acc := by
  intro fuel
  induction fuel with
  | zero =>
      intro stack acc hs _ _
      match stack with
      | [] => simp [calc_encodings_go, stackPaths_nil]
      | (t, index) :: rest =>
          exfalso
          have hpos := size_pos t
          simp only [List.map_cons, List.sum_cons, Nat.le_zero] at hs
          omega
  | succ fuel ih =>
      intro stack acc hs h1 h2
      match stack with
      | [] => simp [calc_encodings_go, stackPaths_nil]
      | (t, index) :: rest =>
          match t with
          | .LeafNode c n =>
              show calc_encodings_go fuel rest (bimap_insert acc c index)
                  = (stackPaths ((TreeNode.LeafNode c n, index) :: rest)).reverse ++ acc
              have sp : stackPaths ((TreeNode.LeafNode c n, index) :: rest)
                  = (c, index) :: stackPaths rest := by
                rw [stackPaths_cons]; rfl
              rw [sp] at h1 h2 ⊢
              simp only [List.map_cons, List.cons_append] at h1 h2
              have hcfresh : ∀ p ∈ acc, p.1 ≠ c := by
                intro p hp hpc
                rcases List.nodup_cons.mp h1 with ⟨hnm, _⟩
                exact hnm (List.mem_append_right _ (hpc ▸ List.mem_map_of_mem Prod.fst hp))
              have hvfresh : ∀ p ∈ acc, p.2 ≠ index := by
                intro p hp hpv
                rcases List.nodup_cons.mp h2 with ⟨hnm, _⟩
                exact hnm (List.mem_append_right _ (hpv ▸ List.mem_map_of_mem Prod.snd hp))
              have hins : bimap_insert acc c index = (c, index) :: acc := by
                unfold bimap_insert
                congr 1
                apply List.filter_eq_self.mpr
                intro p hp
                simp only [Bool.and_eq_true, Bool.not_eq_true', beq_eq_false_iff_ne]
                exact ⟨hcfresh p hp, hvfresh p hp⟩
              rw [hins]
              have hs' : (rest.map (fun e => e.1.size)).sum ≤ fuel := by
                simp only [List.map_cons, List.sum_cons, TreeNode.size] at hs
                omega
              have h1' : ((stackPaths rest).map Prod.fst
                  ++ ((c, index) :: acc).map Prod.fst).Nodup := by
                simp only [List.map_cons]
                exact List.perm_middle.symm.nodup h1
              have h2' : ((stackPaths rest).map Prod.snd
                  ++ ((c, index) :: acc).map Prod.snd).Nodup := by
                simp only [List.map_cons]
                exact List.perm_middle.symm.nodup h2
              rw [ih rest ((c, index) :: acc) hs' h1' h2']
              simp
          | .InternalNode l r k =>
              show calc_encodings_go fuel
                    ((l, index ++ [false]) :: (r, index ++ [true]) :: rest) acc
                  = (stackPaths ((TreeNode.InternalNode l r k, index) :: rest)).reverse ++ acc
              have sp : stackPaths ((l, index ++ [false]) :: (r, index ++ [true]) :: rest)
                  = stackPaths ((TreeNode.InternalNode l r k, index) :: rest) := by
                rw [stackPaths_cons, stackPaths_cons, stackPaths_cons]
                simp [paths, List.append_assoc]
              have hs' : (((l, index ++ [false]) :: (r, index ++ [true]) :: rest).map
                  (fun e => e.1.size)).sum ≤ fuel := by
                simp only [List.map_cons, List.sum_cons, TreeNode.size] at hs ⊢
                omega
              rw [← sp]
              exact ih _ acc hs' (sp ▸ h1) (sp ▸ h2)

theorem calculate_encodings_spec {t : TreeNode} (h : (leafChars t).Nodup) :
    calculate_encodings t = (paths t []).reverse := by
  unfold calculate_encodings
  have hres := calc_encodings_go_spec t.size [(t, [])] [] (by simp)
    (by simp only [stackPaths_cons, stackPaths_nil, List.append_nil, List.map_nil,
          paths_fst]
        exact h)
    (by simp only [stackPaths_cons, stackPaths_nil, List.append_nil, List.map_nil]
        exact paths_snd_nodup t [])
  rw [hres, stackPaths_cons, stackPaths_nil]
  simp

theorem calculate_encodings_fst_nodup {t : TreeNode} (h : (leafChars t).Nodup) :
    ((calculate_encodings t).map Prod.fst).Nodup := by
  rw [calculate_encodings_spec h, List.map_reverse, List.nodup_reverse, paths_fst]
  exact h

theorem mem_calculate_encodings {t : TreeNode} (h : (leafChars t).Nodup)
    (e : Char × List Bool) : e ∈ calculate_encodings t ↔ e ∈ paths t [] := by
  rw [calculate_encodings_spec h, List.mem_reverse]

/-! ### The decoder walk -/

theorem decode_loop_nil (root t : TreeNode) (res : List Char) :
    decode_loop root [] t res = some res := rfl

/-- Walking the full code of a leaf from a subtree consumes exactly that
code, emits the leaf's char and resets to the root. -/
theorem decode_walk (root : TreeNode) :
    ∀ (t : TreeNode) (c : Char) (p : List Bool), (c, p) ∈ paths t [] → p ≠ [] →
      ∀ (rest : List Bool) (res : List Char),
        decode_loop root (p ++ rest) t res = decode_loop root rest root (res ++ [c]) := by
  intro t
  induction t with
  | LeafNode c0 n =>
      intro c p hm hp
      simp only [paths, List.mem_singleton, Prod.mk.injEq] at hm
      exact absurd hm.2 hp
  | InternalNode l r k ihl ihr =>
      intro c p hm hp rest res
      simp only [paths, List.nil_append, List.mem_append] at hm
      rcases hm with hm | hm
      · rw [paths_map l [false]] at hm
        obtain ⟨e, he, heq⟩ := List.mem_map.mp hm
        obtain ⟨c1, q⟩ := e
        simp only [Prod.mk.injEq, List.cons_append, List.nil_append] at heq
        rw [← heq.1, ← heq.2]
        rw [List.cons_append]
        match l with
        | .LeafNode cl nl =>
            simp only [paths, List.mem_singleton, Prod.mk.injEq] at he
            rw [he.2]
            simp [decode_loop, he.1]
        | .InternalNode ll rr kk =>
            have hq : q ≠ [] := mem_paths_ne_nil he
            show decode_loop root (q ++ rest) (TreeNode.InternalNode ll rr kk) res
                = decode_loop root rest root (res ++ [c1])
            exact ihl c1 q he hq rest res
      · rw [paths_map r [true]] at hm
        obtain ⟨e, he, heq⟩ := List.mem_map.mp hm
        obtain ⟨c1, q⟩ := e
        simp only [Prod.mk.injEq, List.cons_append, List.nil_append] at heq
        rw [← heq.1, ← heq.2]
        rw [List.cons_append]
        match r with
        | .LeafNode cl nl =>
            simp only [paths, List.mem_singleton, Prod.mk.injEq] at he
            rw [he.2]
            simp [decode_loop, he.1]
        | .InternalNode ll rr kk =>
            have hq : q ≠ [] := mem_paths_ne_nil he
            show decode_loop root (q ++ rest) (TreeNode.InternalNode ll rr kk) res
                = decode_loop root rest root (res ++ [c1])
            exact ihr c1 q he hq rest res

/-- Walking a strict front part of some leaf's code never reaches a leaf:
the loop simply runs out of bits and returns what was already decoded. -/
theorem decode_truncated (root : TreeNode) :
    ∀ (t : TreeNode) (c : Char) (q p : List Bool), (c, q) ∈ paths t [] →
      p <+: q → p ≠ q → ∀ res : List Char, decode_loop root p t res = some res := by
  intro t
  induction t with
  | LeafNode c0 n =>
      intro c q p hm hpre hne res
      simp only [paths, List.mem_singleton, Prod.mk.injEq] at hm
      rw [hm.2] at hpre
      rw [List.prefix_nil.mp hpre, ← hm.2] at hne
      exact absurd rfl hne
  | InternalNode l r k ihl ihr =>
      intro c q p hm hpre hne res
      match p with
      | [] => exact decode_loop_nil root _ res
      | bit :: p1 =>
          simp only [paths, List.nil_append, List.mem_append] at hm
          rcases hm with hm | hm
          · rw [paths_map l [false]] at hm
            obtain ⟨e, he, heq⟩ := List.mem_map.mp hm
            obtain ⟨c1, q1⟩ := e
            simp only [Prod.mk.injEq, List.cons_append, List.nil_append] at heq
            rw [← heq.2] at hpre hne
            obtain ⟨tl, htl⟩ := hpre
            simp only [List.cons_append, List.cons.injEq] at htl
            have hbit : bit = false := htl.1
            have hpre1 : p1 <+: q1 := ⟨tl, htl.2⟩
            have hne1 : p1 ≠ q1 := by
              intro hcontra
              exact hne (by rw [hbit, hcontra])
            subst hbit
            match l with
            | .LeafNode cl nl =>
                simp only [paths, List.mem_singleton, Prod.mk.injEq] at he
                rw [he.2] at hpre1
                rw [List.prefix_nil.mp hpre1, he.2] at hne1
                exact absurd rfl hne1
            | .InternalNode ll rr kk =>
                show decode_loop root p1 (TreeNode.InternalNode ll rr kk) res = some res
                exact ihl c1 q1 p1 he hpre1 hne1 res
          · rw [paths_map r [true]] at hm
            obtain ⟨e, he, heq⟩ := List.mem_map.mp hm
            obtain ⟨c1, q1⟩ := e
            simp only [Prod.mk.injEq, List.cons_append, List.nil_append] at heq
            rw [← heq.2] at hpre hne
            obtain ⟨tl, htl⟩ := hpre
            simp only [List.cons_append, List.cons.injEq] at htl
            have hbit : bit = true := htl.1
            have hpre1 : p1 <+: q1 := ⟨tl, htl.2⟩
            have hne1 : p1 ≠ q1 := by
              intro hcontra
              exact hne (by rw [hbit, hcontra])
            subst hbit
            match r with
            | .LeafNode cl nl =>
                simp only [paths, List.mem_singleton, Prod.mk.injEq] at he
                rw [he.2] at hpre1
                rw [List.prefix_nil.mp hpre1, he.2] at hne1
                exact absurd rfl hne1
            | .InternalNode ll rr kk =>
                show decode_loop root p1 (TreeNode.InternalNode ll rr kk) res = some res
                exact ihr c1 q1 p1 he hpre1 hne1 res

/-- A good table for input `s` over tree `t`: every char of `s` resolves to
its (nonempty) leaf path. -/
def goodTable (table : HuffmanTable) (t : TreeNode) (s : List Char) : Prop :=
  ∀ c ∈ s, ∃ p, get_by_left table c = some p ∧ (c, p) ∈ paths t [] ∧ p ≠ []

theorem encode_total {table : HuffmanTable} {t : TreeNode} :
    ∀ {s : List Char}, goodTable table t s → ∃ bits, huffman_encode s table = some bits := by
  intro s
  induction s with
  | nil => exact fun _ => ⟨[], rfl⟩
  | cons c rest ih =>
      intro hg
      obtain ⟨p, hp, _, _⟩ := hg c (by simp)
      obtain ⟨bits, hbits⟩ := ih (fun d hd => hg d (List.mem_cons_of_mem c hd))
      refine ⟨p ++ bits, ?_⟩
      show (match get_by_left table c with
            | none => none
            | some index =>
                match huffman_encode rest table with
                | none => none
                | some restBits => some (index ++ restBits)) = some (p ++ bits)
      rw [hp, hbits]

/-- Decoding an encoded stream (plus arbitrary leftover bits) from the root
replays the input string, then continues on the leftover bits. -/
theorem decode_encode_chain {table : HuffmanTable} {root : TreeNode} :
    ∀ (s : List Char) (bits : List Bool), goodTable table root s →
      huffman_encode s table = some bits →
      ∀ (rest : List Bool) (res : List Char),
        decode_loop root (bits ++ rest) root res = decode_loop root rest root (res ++ s) := by
  intro s
  induction s with
  | nil =>
      intro bits _ henc rest res
      have hb : bits = [] := by
        simpa [huffman_encode] using henc.symm
      rw [hb]
      simp
  | cons c s1 ih =>
      intro bits hg henc rest res
      obtain ⟨p, hp, hmem, hpne⟩ := hg c (by simp)
      have henc' : (match huffman_encode s1 table with
          | none => none
          | some restBits => some (p ++ restBits)) = some bits := by
        have : (match get_by_left table c with
            | none => none
            | some index =>
                match huffman_encode s1 table with
                | none => none
                | some restBits => some (index ++ restBits)) = some bits := henc
        rwa [hp] at this
      match hb : huffman_encode s1 table with
      | none => rw [hb] at henc'; cases henc'
      | some bits1 =>
          rw [hb] at henc'
          have hbits : bits = p ++ bits1 := by
            simpa using henc'.symm
          subst hbits
          rw [List.append_assoc]
          rw [decode_walk root root c p hmem hpne (bits1 ++ rest) res]
          rw [ih bits1 (fun d hd => hg d (List.mem_cons_of_mem c hd)) hb rest (res ++ [c])]
          simp

/-! ### Assembly: the generated table is good for its own input -/

theorem huffman_setup {s : List Char} {a b : Char}
    (ha : a ∈ s) (hb : b ∈ s) (hab : a ≠ b) :
    ∃ t, calculate_huffman_tree s = some t ∧
      (∃ l r k, t = TreeNode.InternalNode l r k) ∧
      (leafChars t).Nodup ∧
      List.Perm (leafChars t) ((count_chars s).map Prod.fst) ∧
      goodTable (calculate_encodings t) t s := by
  have hkn := count_chars_fst_nodup s
  have hka : a ∈ (count_chars s).map Prod.fst := (mem_count_chars_fst s a).mpr ha
  have hkb : b ∈ (count_chars s).map Prod.fst := (mem_count_chars_fst s b).mpr hb
  have h2 : 2 ≤ ((count_chars s).map Prod.fst).length :=
    two_le_length_of_two_mem hka hkb hab
  have h2i : 2 ≤ (initialize_nodes (count_chars s)).length := by
    rw [initialize_nodes_length]
    rw [List.length_map] at h2
    exact h2
  obtain ⟨l, r, k, hlrk⟩ := construct_tree_go_internal
    (initialize_nodes (count_chars s)).length (initialize_nodes (count_chars s))
    h2i (Nat.le_succ _)
  have hts : calculate_huffman_tree s = some (TreeNode.InternalNode l r k) := hlrk
  have hlc := construct_tree_go_leafChars _ _ _ (Nat.le_succ _) hlrk
  have hperm : List.Perm (leafChars (TreeNode.InternalNode l r k))
      ((count_chars s).map Prod.fst) :=
    hlc.trans (initialize_nodes_chars_perm _)
  have hnodup : (leafChars (TreeNode.InternalNode l r k)).Nodup := hperm.symm.nodup hkn
  refine ⟨TreeNode.InternalNode l r k, hts, ⟨l, r, k, rfl⟩, hnodup, hperm, ?_⟩
  intro c hc
  have hck : c ∈ (count_chars s).map Prod.fst := (mem_count_chars_fst s c).mpr hc
  have hcl : c ∈ leafChars (TreeNode.InternalNode l r k) := hperm.mem_iff.mpr hck
  obtain ⟨p, hp⟩ := mem_paths_of_leafChar hcl
  refine ⟨p, ?_, hp, mem_paths_ne_nil hp⟩
  exact get_by_left_of_mem (calculate_encodings_fst_nodup hnodup)
    ((mem_calculate_encodings hnodup _).mpr hp)

theorem round_trip_core {s : List Char} {a b : Char}
    (ha : a ∈ s) (hb : b ∈ s) (hab : a ≠ b) :
    ∃ t bits, calculate_huffman_tree s = some t ∧
      huffman_encode s (calculate_encodings t) = some bits ∧
      huffman_decode bits t = some s := by
  obtain ⟨t, hts, _, _, _, hgood⟩ := huffman_setup ha hb hab
  obtain ⟨bits, hbits⟩ := encode_total hgood
  refine ⟨t, bits, hts, hbits, ?_⟩
  unfold huffman_decode
  have hchain := decode_encode_chain s bits hgood hbits [] []
  rw [List.append_nil] at hchain
  rw [hchain, List.nil_append]
  exact decode_loop_nil t t s

example : calculate_huffman_tree ['a', 'b'] =
    some (.InternalNode (.LeafNode 'b' 1) (.LeafNode 'a' 1) 2) := rfl

/-! ### The claims -/

/-- C1: Round-trip.  For every input with at least two distinct symbols,
the tree is built, encoding against the table derived from that tree
succeeds, and decoding the encoded stream against the tree returns the
original input exactly. -/
theorem C1_round_trip (s : List Char) (a b : Char)
    (ha : a ∈ s) (hb : b ∈ s) (hab : a ≠ b) :
    ∃ t bits, calculate_huffman_tree s = some t ∧
      huffman_encode s (calculate_encodings t) = some bits ∧
      huffman_decode bits t = some s :=
  round_trip_core ha hb hab

/-- Witness for C1 at the concrete input "ab". -/
theorem C1_round_trip_witness :
    ('a' ∈ (['a', 'b'] : List Char)) ∧ ('b' ∈ (['a', 'b'] : List Char)) ∧
    ('a' : Char) ≠ 'b' ∧
    (∃ t bits, calculate_huffman_tree ['a', 'b'] = some t ∧
      huffman_encode ['a', 'b'] (calculate_encodings t) = some bits ∧
      huffman_decode bits t = some ['a', 'b']) :=
  ⟨by decide, by decide, by decide,
    C1_round_trip ['a', 'b'] 'a' 'b' (by decide) (by decide) (by decide)⟩

/-- C2 (code evaluated at the failing input): on the empty input the source
does not return an `EmptyInput` error; `construct_tree` runs
`nodes.pop().unwrap()` on an empty vector, which panics (modelled by
`none`). -/
theorem C2_empty_input_panics : calculate_huffman_tree [] = none := rfl

/-- C3 (code evaluated at the failing input): on the single-symbol input
"aaaa" the source silently assigns `'a'` the zero-length code `[]` (no
one-bit special case and no `SingleSymbolInput` error, as the source's own
FIXME admits), so the encoded stream is empty and decoding returns `""`,
not "aaaa". -/
theorem C3_single_symbol_zero_length_code :
    calculate_huffman_tree ['a', 'a', 'a', 'a'] = some (TreeNode.LeafNode 'a' 4) ∧
    calculate_encodings (TreeNode.LeafNode 'a' 4) = [('a', [])] ∧
    huffman_encode ['a', 'a', 'a', 'a'] (calculate_encodings (TreeNode.LeafNode 'a' 4))
      = some [] ∧
    huffman_decode [] (TreeNode.LeafNode 'a' 4) = some [] ∧
    ([] : List Char) ≠ ['a', 'a', 'a', 'a'] :=
  ⟨rfl, rfl, rfl, rfl, by decide⟩

/-- C4 counterexample: the claim "huffman_decode fails with a
MalformedStream error on a truncated trailing code" is false.  On the tree
built from "aabc", the one-bit stream `[false]` is a proper, nonempty
front part of the code `[false, false]` of `'c'` (so the walk is exhausted
strictly between the root reset and a leaf), yet `huffman_decode` returns
the successfully decoded prefix `some []` — it does not fail. -/
theorem C4_counterexample :
    calculate_huffman_tree ['a', 'a', 'b', 'c'] = some (TreeNode.InternalNode
      (TreeNode.InternalNode (TreeNode.LeafNode 'c' 1) (TreeNode.LeafNode 'b' 1) 2)
      (TreeNode.LeafNode 'a' 2) 4) ∧
    ('c', [false, false]) ∈ calculate_encodings (TreeNode.InternalNode
      (TreeNode.InternalNode (TreeNode.LeafNode 'c' 1) (TreeNode.LeafNode 'b' 1) 2)
      (TreeNode.LeafNode 'a' 2) 4) ∧
    [false] <+: [false, false] ∧ ([false] : List Bool) ≠ [false, false] ∧
    huffman_decode [false] (TreeNode.InternalNode
      (TreeNode.InternalNode (TreeNode.LeafNode 'c' 1) (TreeNode.LeafNode 'b' 1) 2)
      (TreeNode.LeafNode 'a' 2) 4) = some [] ∧
    huffman_decode [false] (TreeNode.InternalNode
      (TreeNode.InternalNode (TreeNode.LeafNode 'c' 1) (TreeNode.LeafNode 'b' 1) 2)
      (TreeNode.LeafNode 'a' 2) 4) ≠ none :=
  ⟨rfl, by decide, ⟨[false], rfl⟩, by decide, rfl, by decide⟩

/-- C4 (amended): when the stream is exhausted strictly between a tree-root
reset and reaching a leaf (a truncated trailing code), `huffman_decode`
does not fail: it returns the symbols decoded before the truncated code as
a successful result, silently dropping the trailing bits.  (There is no
`MalformedStream` error in the code.) -/
theorem C4_truncated_returns_partial (s : List Char) (a b : Char)
    (ha : a ∈ s) (hb : b ∈ s) (hab : a ≠ b) {t : TreeNode}
    (ht : calculate_huffman_tree s = some t) {bits : List Bool}
    (he : huffman_encode s (calculate_encodings t) = some bits)
    (c : Char) (q p : List Bool) (hcq : (c, q) ∈ calculate_encodings t)
    (hpq : p <+: q) (hne : p ≠ q) :
    huffman_decode (bits ++ p) t = some s := by
  obtain ⟨t', hts', _, hnodup, _, hgood⟩ := huffman_setup ha hb hab
  have htt : t' = t := by
    rw [ht] at hts'
    exact (Option.some.inj hts').symm
  subst htt
  unfold huffman_decode
  rw [decode_encode_chain s bits hgood he p []]
  have hq : (c, q) ∈ paths t' [] := (mem_calculate_encodings hnodup _).mp hcq
  rw [List.nil_append]
  exact decode_truncated t' t' c q p hq hpq hne s

/-- Witness for the amended C4 at the input "aabc" with the truncated
trailing code `[false]` (a proper front part of `'c'`'s code). -/
theorem C4_truncated_returns_partial_witness :
    ('a' ∈ (['a', 'a', 'b', 'c'] : List Char)) ∧
    ('b' ∈ (['a', 'a', 'b', 'c'] : List Char)) ∧ ('a' : Char) ≠ 'b' ∧
    calculate_huffman_tree ['a', 'a', 'b', 'c'] = some (TreeNode.InternalNode
      (TreeNode.InternalNode (TreeNode.LeafNode 'c' 1) (TreeNode.LeafNode 'b' 1) 2)
      (TreeNode.LeafNode 'a' 2) 4) ∧
    huffman_encode ['a', 'a', 'b', 'c'] (calculate_encodings (TreeNode.InternalNode
      (TreeNode.InternalNode (TreeNode.LeafNode 'c' 1) (TreeNode.LeafNode 'b' 1) 2)
      (TreeNode.LeafNode 'a' 2) 4)) = some [true, true, false, true, false, false] ∧
    ('c', [false, false]) ∈ calculate_encodings (TreeNode.InternalNode
      (TreeNode.InternalNode (TreeNode.LeafNode 'c' 1) (TreeNode.LeafNode 'b' 1) 2)
      (TreeNode.LeafNode 'a' 2) 4) ∧
    [false] <+: [false, false] ∧ ([false] : List Bool) ≠ [false, false] ∧
    huffman_decode ([true, true, false, true, false, false] ++ [false])
      (TreeNode.InternalNode
        (TreeNode.InternalNode (TreeNode.LeafNode 'c' 1) (TreeNode.LeafNode 'b' 1) 2)
        (TreeNode.LeafNode 'a' 2) 4) = some ['a', 'a', 'b', 'c'] :=
  ⟨by decide, by decide, by decide, rfl, rfl, by decide, ⟨[false], rfl⟩, by decide,
    C4_truncated_returns_partial ['a', 'a', 'b', 'c'] 'a' 'b'
      (by decide) (by decide) (by decide) rfl rfl 'c' [false, false] [false]
      (by decide) ⟨[false], rfl⟩ (by decide)⟩

/-- C5 (code evaluated at the failing input): when a symbol of the input
has no entry in the independently supplied table, `huffman_encode` does not
return a checked `SymbolNotFound` error — it panics through
`expect("char should be in the table")`, modelled by `none`; when every
symbol has an entry, encoding succeeds. -/
theorem C5_missing_symbol_panics :
    huffman_encode ['a'] [] = none ∧
    huffman_encode ['a'] [('a', [true])] = some [true] :=
  ⟨rfl, rfl⟩

/-- C6: Prefix-freedom and bijectivity of the generated table.  For every
input with at least two distinct symbols: no code of one symbol is a prefix
of another symbol's code; symbols are pairwise distinct in the table; codes
are pairwise distinct; and the table's symbols are exactly the symbols of
the input. -/
theorem C6_prefix_free_bijective (s : List Char) (a b : Char)
    (ha : a ∈ s) (hb : b ∈ s) (hab : a ≠ b) :
    ∃ t, calculate_huffman_tree s = some t ∧
      (∀ e1 ∈ calculate_encodings t, ∀ e2 ∈ calculate_encodings t,
        e1.1 ≠ e2.1 → ¬ e1.2 <+: e2.2) ∧
      ((calculate_encodings t).map Prod.fst).Nodup ∧
      ((calculate_encodings t).map Prod.snd).Nodup ∧
      (∀ c : Char, c ∈ s ↔ ∃ p, (c, p) ∈ calculate_encodings t) := by
  obtain ⟨t, hts, _, hnodup, hperm, hgood⟩ := huffman_setup ha hb hab
  refine ⟨t, hts, ?_, calculate_encodings_fst_nodup hnodup, ?_, ?_⟩
  · intro e1 h1 e2 h2 hne hpre
    exact hne (congrArg Prod.fst
      (paths_prefixFree t [] e1 ((mem_calculate_encodings hnodup e1).mp h1)
        e2 ((mem_calculate_encodings hnodup e2).mp h2) hpre))
  · rw [calculate_encodings_spec hnodup, List.map_reverse, List.nodup_reverse]
    exact paths_snd_nodup t []
  · intro c
    constructor
    · intro hc
      obtain ⟨p, _, hp2, _⟩ := hgood c hc
      exact ⟨p, (mem_calculate_encodings hnodup _).mpr hp2⟩
    · rintro ⟨p, hp⟩
      have hpm : (c, p) ∈ paths t [] := (mem_calculate_encodings hnodup _).mp hp
      have hcl : c ∈ leafChars t := by
        rw [← paths_fst t []]
        exact List.mem_map_of_mem Prod.fst hpm
      exact (mem_count_chars_fst s c).mp (hperm.mem_iff.mp hcl)

/-- Witness for C6 at the concrete input "ab". -/
theorem C6_prefix_free_bijective_witness :
    ('a' ∈ (['a', 'b'] : List Char)) ∧ ('b' ∈ (['a', 'b'] : List Char)) ∧
    ('a' : Char) ≠ 'b' ∧
    (∃ t, calculate_huffman_tree ['a', 'b'] = some t ∧
      (∀ e1 ∈ calculate_encodings t, ∀ e2 ∈ calculate_encodings t,
        e1.1 ≠ e2.1 → ¬ e1.2 <+: e2.2) ∧
      ((calculate_encodings t).map Prod.fst).Nodup ∧
      ((calculate_encodings t).map Prod.snd).Nodup ∧
      (∀ c : Char, c ∈ (['a', 'b'] : List Char) ↔ ∃ p, (c, p) ∈ calculate_encodings t)) :=
  ⟨by decide, by decide, by decide,
    C6_prefix_free_bijective ['a', 'b'] 'a' 'b' (by decide) (by decide) (by decide)⟩

/-- C7: Weight invariant.  In every tree returned by
`calculate_huffman_tree` on a non-empty input, every internal node's count
equals the sum of its children's counts, and the root's count equals the
input's length. -/
theorem C7_weight_invariant (s : List Char) (_hne : s ≠ []) {t : TreeNode}
    (h : calculate_huffman_tree s = some t) :
    countOk t = true ∧ t.count = s.length := by
  unfold calculate_huffman_tree construct_tree at h
  refine ⟨construct_tree_go_countOk _ _ t (Nat.le_succ _)
    (initialize_nodes_countOk _) h, ?_⟩
  rw [construct_tree_go_count_sum _ _ t (Nat.le_succ _) h,
    initialize_nodes_count_sum, count_chars_snd_sum]

/-- Witness for C7 at the concrete input "ab". -/
theorem C7_weight_invariant_witness :
    ((['a', 'b'] : List Char) ≠ []) ∧
    (countOk (TreeNode.InternalNode (TreeNode.LeafNode 'b' 1)
        (TreeNode.LeafNode 'a' 1) 2) = true ∧
      TreeNode.count (TreeNode.InternalNode (TreeNode.LeafNode 'b' 1)
        (TreeNode.LeafNode 'a' 1) 2) = (['a', 'b'] : List Char).length) :=
  ⟨by decide, C7_weight_invariant ['a', 'b'] (by decide) rfl⟩

/-- C8: Determinism.  Tree construction and hence the code table depend
only on the frequency map, not on the `HashMap` iteration order: any two
iteration orders of the same map (i.e. permutations of the same
(char, count) list) give identical leaf lists, identical trees and
identical tables. -/
theorem C8_determinism (l1 l2 : List (Char × Nat)) (h : List.Perm l1 l2) :
    initialize_nodes l1 = initialize_nodes l2 ∧
    construct_tree (initialize_nodes l1) = construct_tree (initialize_nodes l2) ∧
    (construct_tree (initialize_nodes l1)).map calculate_encodings
      = (construct_tree (initialize_nodes l2)).map calculate_encodings := by
  have hsort : l1.insertionSort key_le = l2.insertionSort key_le :=
    List.eq_of_perm_of_sorted
      ((List.perm_insertionSort key_le l1).trans
        (h.trans (List.perm_insertionSort key_le l2).symm))
      (List.sorted_insertionSort key_le l1) (List.sorted_insertionSort key_le l2)
  have hinit : initialize_nodes l1 = initialize_nodes l2 := by
    unfold initialize_nodes
    rw [hsort]
  exact ⟨hinit, by rw [hinit], by rw [hinit]⟩

/-- Witness for C8 on two iteration orders of the map {a: 1, b: 2}. -/
theorem C8_determinism_witness :
    List.Perm [('a', 1), ('b', 2)] [('b', 2), ('a', 1)] ∧
    (initialize_nodes [('a', 1), ('b', 2)] = initialize_nodes [('b', 2), ('a', 1)] ∧
      construct_tree (initialize_nodes [('a', 1), ('b', 2)])
        = construct_tree (initialize_nodes [('b', 2), ('a', 1)]) ∧
      (construct_tree (initialize_nodes [('a', 1), ('b', 2)])).map calculate_encodings
        = (construct_tree (initialize_nodes [('b', 2), ('a', 1)])).map calculate_encodings) :=
  ⟨by decide, C8_determinism [('a', 1), ('b', 2)] [('b', 2), ('a', 1)] (by decide)⟩

/-- C9: Decoder safety.  On a stream produced by `huffman_encode` over the
matching table and tree of an input with at least two distinct symbols, the
decoder never consumes a bit while sitting on a leaf: in the embedding the
`unreachable!()` branches are the only sources of `none` in `decode_loop`,
and the decode result is `some`. -/
theorem C9_decoder_safety (s : List Char) (a b : Char)
    (ha : a ∈ s) (hb : b ∈ s) (hab : a ≠ b) :
    ∃ t bits, calculate_huffman_tree s = some t ∧
      huffman_encode s (calculate_encodings t) = some bits ∧
      (huffman_decode bits t).isSome = true := by
  obtain ⟨t, bits, h1, h2, h3⟩ := round_trip_core ha hb hab
  refine ⟨t, bits, h1, h2, ?_⟩
  rw [h3]
  rfl

/-- Witness for C9 at the concrete input "ab". -/
theorem C9_decoder_safety_witness :
    ('a' ∈ (['a', 'b'] : List Char)) ∧ ('b' ∈ (['a', 'b'] : List Char)) ∧
    ('a' : Char) ≠ 'b' ∧
    (∃ t bits, calculate_huffman_tree ['a', 'b'] = some t ∧
      huffman_encode ['a', 'b'] (calculate_encodings t) = some bits ∧
      (huffman_decode bits t).isSome = true) :=
  ⟨by decide, by decide, by decide,
    C9_decoder_safety ['a', 'b'] 'a' 'b' (by decide) (by decide) (by decide)⟩

/-- C10: Decoding the empty bit sequence returns the empty string for every
tree, without error: the loop body is never entered. -/
theorem C10_decode_empty_stream (t : TreeNode) : huffman_decode [] t = some [] := rfl

example : calculate_encodings (.InternalNode (.LeafNode 'b' 1) (.LeafNode 'a' 1) 2) =
    [('a', [true]), ('b', [false])] := rfl

example : huffman_encode ['a', 'b'] [('a', [true]), ('b', [false])] =
    some [true, false] := rfl

example : huffman_decode [true, false]
    (.InternalNode (.LeafNode 'b' 1) (.LeafNode 'a' 1) 2) = some ['a', 'b'] := rfl

end Huffman
